import Mathlib

/-!
Verification development for the `openmp-stdthread` histogram benchmark
repository.

The repository contains three C++ programs:

* `src/hist_threads.cpp` — the explicit `std::thread` pool backend;
* `src/hist_openmp.cpp`  — the directive-driven OpenMP backend
  (embedded in `scripts/build.sh`);
* `src/hist_seq.cpp`     — the sequential baseline
  (embedded in `scripts/build.sh`).

Each program generates `N` pseudo-random integers in `[min, max]` and counts
them into a histogram with one of three synchronization variants
(`private`, `atomic`, `mutex`), emitting one CSV record per repetition.

This file shallowly embeds those programs.  Machine integers are modelled as
`Nat`/`Int` with explicit `% 2^64` (resp. `% 2^32`) where the C++ source
performs unsigned wraparound arithmetic.

Concurrency is sequentialized: in every counting variant each element of the
dataset causes exactly one increment of exactly one bin, the increments are
made race-free by the source's synchronization (thread-local arrays merged
under a critical section for `private`, atomic adds for `atomic`, a per-bin
lock for `mutex`), and bin increments commute, so the final per-bin counts of
any interleaving equal the counts of the sequentialized execution modelled
here.  Wall-clock timing fields (`gen_ms`, `hist_ms`, `total_ms`) are
measurements of real time and are outside the functional model; the emitted
record is modelled without them.
-/

namespace HistBench

/-- Modulus of C++ `uint64_t` arithmetic. -/
def U64 : Nat := 18446744073709551616

/-- Modulus of C++ `unsigned` (32-bit) arithmetic. -/
def U32 : Nat := 4294967296

/-! ## Partitioner of the `std::thread` backend

`hist_threads.cpp`, lines 109–116:
`chunk = (N + T - 1) / T` in `uint64_t` arithmetic, thread `t` owns the
half-open index range `[t*chunk, min(N, (t+1)*chunk))`. -/

/-- Chunk size `chunk = (a.N + (uint64_t)T - 1) / (uint64_t)T` of
`hist_threads.cpp` line 109 (the sum wraps at `2^64` like the C++ source). -/
def chunk (N T : Nat) : Nat := ((N + T - 1) % U64) / T

/-- Start of thread `t`'s range: `(uint64_t)t * chunk` (line 115). -/
def tStart (N T t : Nat) : Nat := (t * chunk N T) % U64

/-- End of thread `t`'s range: `min(a.N, (uint64_t)(t+1) * chunk)` (line 116). -/
def tEnd (N T t : Nat) : Nat := min N (((t + 1) * chunk N T) % U64)

/-- Number of loop iterations `for (i = start; i < end; ++i)` executed by
thread `t` (zero when `start ≥ end`, as for the C++ unsigned loop). -/
def tLen (N T t : Nat) : Nat := tEnd N T t - tStart N T t

/-! ## Partitioner of the OpenMP backend

`hist_openmp.cpp` distributes its loops with `#pragma omp for
schedule(static)` and no chunk size.  GCC's libgomp (the runtime used by
`scripts/build.sh`, which compiles with `g++ -fopenmp`) assigns thread `t`
a single contiguous block: with `q = N / T` and `rm = N % T`, thread `t`
receives `q + 1` iterations if `t < rm` and `q` iterations otherwise, blocks
in increasing thread order. -/

/-- Length of the `schedule(static)` block of thread `t` (libgomp semantics
of the `#pragma omp for schedule(static)` loops in `hist_openmp.cpp`). -/
def oLen (N T t : Nat) : Nat := N / T + (if t < N % T then 1 else 0)

/-- Start of the `schedule(static)` block of thread `t`. -/
def oStart (N T t : Nat) : Nat := t * (N / T) + min t (N % T)

/-! ## Per-worker generator seeds and datasets

Each worker seeds its own `mt19937_64` with
`a.seed + (unsigned)t * 1337u + (unsigned)r * 17u` (`hist_threads.cpp`
line 118, `hist_openmp.cpp` line 126) — C++ `unsigned` arithmetic, i.e.
mod `2^32`.  The sequential baseline uses `a.seed + (unsigned)r * 17u`
(`hist_seq.cpp` line 320).

The stream of values produced by one seeded generator is abstracted as a
function `gen : Nat → Nat → Int`: `gen s k` is the `k`-th value returned by
`dist(rng)` for a `uniform_int_distribution dist(minv, maxv)` driven by an
`mt19937_64` seeded with `s`.  A concrete instance (`mtStream`) faithful to
`std::mt19937_64` plus libstdc++'s downscaling rejection algorithm is defined
further below. -/

/-- Seed of worker `t` in repetition `r`:
`a.seed + (unsigned)t * 1337u + (unsigned)r * 17u` (mod `2^32`). -/
def tseed (seed t r : Nat) : Nat := (seed + t * 1337 + r * 17) % U32

/-- Concatenation, in increasing worker order, of the blocks of values each
worker writes into the shared buffer: worker `t` writes `lens t` values
`vals t 0, vals t 1, …` into the contiguous range starting at
`Σ_{t' < t} lens t'`.  Because every partitioner in this file assigns
contiguous, disjoint, increasing ranges, the concatenation equals the final
buffer contents. -/
def blocks (lens : Nat → Nat) (vals : Nat → Nat → Int) (T : Nat) : List Int :=
  (List.range T).flatMap fun t => (List.range (lens t)).map (vals t)

/-- Dataset produced by the generation stage of `hist_threads.cpp`
(lines 113–126): thread `t` fills `[t*chunk, min(N,(t+1)*chunk))` in index
order from its own generator. -/
def threadsGen (gen : Nat → Nat → Int) (seed r N T : Nat) : List Int :=
  blocks (tLen N T) (fun t => gen (tseed seed t r)) T

/-- Dataset produced by the generation stage of `hist_openmp.cpp`
(lines 119–134): thread `t` fills its `schedule(static)` block in index
order from its own generator. -/
def ompGen (gen : Nat → Nat → Int) (seed r N T : Nat) : List Int :=
  blocks (oLen N T) (fun t => gen (tseed seed t r)) T

/-- Dataset produced by the sequential baseline `hist_seq.cpp`
(lines 320–324): one generator seeded `a.seed + (unsigned)r * 17u` fills
indices `0..N-1` in order. -/
def seqGen (gen : Nat → Nat → Int) (seed r N : Nat) : List Int :=
  (List.range N).map (gen ((seed + r * 17) % U32))

/-! ## Histogram counting

All counting loops execute `++hist[data[i] - minv]` (in one of the three
synchronization disciplines) for every index `i` of their partition.
Histograms are modelled as total maps `Nat → Nat` from bin index to count;
the C++ arrays have `bins` entries and all increments hit indices
`< bins` whenever the dataset lies in `[minv, maxv]`. -/

/-- Bin index of value `v`: `data[i] - a.minv` (non-negative whenever
`minv ≤ v`). -/
def idxOf (minv v : Int) : Nat := (v - minv).toNat

/-- One increment `++hist[i]`. -/
def bump (h : Nat → Nat) (i : Nat) : Nat → Nat :=
  fun b => if b = i then h i + 1 else h b

/-- The counting loop `for (i = start; i < start + len; ++i)
++hist[data[i] - minv]` starting from histogram `h0`. -/
def countRange (data : List Int) (minv : Int) (h0 : Nat → Nat)
    (start len : Nat) : Nat → Nat :=
  (List.range len).foldl (fun h k => bump h (idxOf minv (data.getD (start + k) 0))) h0

/-- The all-zero histogram a run starts from. -/
def zeroHist : Nat → Nat := fun _ => 0

/-- Sequentialization of `T` workers incrementing one shared histogram, worker
`t` counting its partition `[starts t, starts t + lens t)`. -/
def foldCount (data : List Int) (minv : Int) (starts lens : Nat → Nat)
    (T : Nat) : Nat → Nat :=
  (List.range T).foldl (fun h t => countRange data minv h (starts t) (lens t)) zeroHist

/-- The `private` strategy: worker `t` counts its partition into a private
zeroed array, and the final merge adds all local arrays bin-wise. -/
def mergeCount (data : List Int) (minv : Int) (starts lens : Nat → Nat)
    (T : Nat) : Nat → Nat :=
  fun b =>
    ((List.range T).map fun t => countRange data minv zeroHist (starts t) (lens t) b).sum

/-- `private` variant of `hist_threads.cpp` (lines 137–161): per-thread local
histograms over the ceil-chunk partition, then a bin-wise reduction. -/
def privateHist (data : List Int) (minv : Int) (N T : Nat) : Nat → Nat :=
  mergeCount data minv (tStart N T) (tLen N T) T

/-- `atomic` variant of `hist_threads.cpp` (lines 163–182): one shared array,
relaxed atomic `fetch_add` per element, over the ceil-chunk partition. -/
def atomicHist (data : List Int) (minv : Int) (N T : Nat) : Nat → Nat :=
  foldCount data minv (tStart N T) (tLen N T) T

/-- `mutex` variant of `hist_threads.cpp` (lines 184–203): one shared array,
one lock per bin guarding each increment, over the ceil-chunk partition. -/
def mutexHist (data : List Int) (minv : Int) (N T : Nat) : Nat → Nat :=
  foldCount data minv (tStart N T) (tLen N T) T

/-- `private` variant of `hist_openmp.cpp` (lines 146–168): local arrays over
the `schedule(static)` partition, merged under `#pragma omp critical`. -/
def ompPrivateHist (data : List Int) (minv : Int) (N T : Nat) : Nat → Nat :=
  mergeCount data minv (oStart N T) (oLen N T) T

/-- `atomic` variant of `hist_openmp.cpp` (lines 170–181):
`#pragma omp atomic update` increments over the `schedule(static)` partition. -/
def ompAtomicHist (data : List Int) (minv : Int) (N T : Nat) : Nat → Nat :=
  foldCount data minv (oStart N T) (oLen N T) T

/-- `mutex` variant of `hist_openmp.cpp` (lines 183–198): per-bin
`omp_lock_t` guarded increments over the `schedule(static)` partition. -/
def ompMutexHist (data : List Int) (minv : Int) (N T : Nat) : Nat → Nat :=
  foldCount data minv (oStart N T) (oLen N T) T

/-- Histogram of the sequential baseline `hist_seq.cpp` (lines 332–336). -/
def seqHist (data : List Int) (minv : Int) (N : Nat) : Nat → Nat :=
  countRange data minv zeroHist 0 N

/-- `sum_hist`: `accumulate` over the `bins` cells of the histogram. -/
def histSum (h : Nat → Nat) (bins : Nat) : Nat :=
  ((List.range bins).map h).sum

/-! ## Main-program control flow -/

/-- Run configuration parsed from the command line (`struct Args`):
`N` is `uint64_t`, `minv`/`maxv`/`rep`/`threads` are `int`, `seed` is
`unsigned`, `variant` a string. -/
structure Cfg where
  N : Nat
  minv : Int
  maxv : Int
  seed : Nat
  rep : Nat
  variant : String
  threads : Int
deriving DecidableEq

/-- One emitted CSV record
`backend,variant,threads,N,bins,min,max,seed,…,sum_hist` (the wall-clock
fields `gen_ms`, `hist_ms`, `total_ms` are real-time measurements outside
the functional model). -/
structure Row where
  backend : String
  variant : String
  threads : Int
  N : Nat
  bins : Int
  minv : Int
  maxv : Int
  seed : Nat
  sumHist : Nat
deriving DecidableEq

/-- Observable outcome of one whole process run: the exit status, how many
generation phases were executed, and the emitted records in order. -/
structure RunOut where
  exitCode : Nat
  genPhases : Nat
  recs : List Row
deriving DecidableEq

/-- Range normalization `if (a.maxv < a.minv) swap(a.maxv, a.minv)`
(`hist_threads.cpp` line 85, `hist_openmp.cpp` line 102,
`hist_seq.cpp` line 308), returning `(minv, maxv)` post-swap. -/
def normRange (minv maxv : Int) : Int × Int :=
  if maxv < minv then (maxv, minv) else (minv, maxv)

/-- Thread-count fixup of `hist_threads.cpp` line 89:
`if (a.threads <= 0) a.threads = 4`. -/
def normThreads (t : Int) : Int := if t ≤ 0 then 4 else t

/-- Team size used by the OpenMP backend: `omp_set_num_threads(a.threads)`
is called only when `a.threads > 0` (`hist_openmp.cpp` line 106), otherwise
the runtime default team size `defT` is used. -/
def ompTeam (defT : Nat) (t : Int) : Nat := if 0 < t then t.toNat else defT

/-- Variant validity test of `hist_threads.cpp` line 93 (equivalently the
`if/else if` chain of `hist_openmp.cpp`). -/
def variantOk (v : String) : Bool :=
  v == "private" || v == "atomic" || v == "mutex"

/-- Variant dispatch of `hist_threads.cpp` lines 137–204
(`if private / else if atomic / else mutex`). -/
def variantHist (v : String) (data : List Int) (minv : Int) (N T : Nat) :
    Nat → Nat :=
  if v == "private" then privateHist data minv N T
  else if v == "atomic" then atomicHist data minv N T
  else mutexHist data minv N T

/-- Variant dispatch of `hist_openmp.cpp` lines 146–198 (only reached for a
supported variant). -/
def ompVariantHist (v : String) (data : List Int) (minv : Int) (N T : Nat) :
    Nat → Nat :=
  if v == "private" then ompPrivateHist data minv N T
  else if v == "atomic" then ompAtomicHist data minv N T
  else ompMutexHist data minv N T

/-- Outcome of the post-counting stage of one repetition: either an ordinary
CSV record is emitted and the loop continues, or the run stops with a
non-zero status. -/
inductive RepOutcome where
  | emit : Row → RepOutcome
  | fatal : Nat → RepOutcome
deriving DecidableEq

/-- Emission stage of one repetition of `hist_threads.cpp` (lines 206–220):
after the counting phase the computed `sum_hist` is written, together with
the configuration fields, into one CSV line.  The source contains no
comparison of `sum_hist` against `N`, so the stage emits an ordinary record
for every value of `sum_hist`; it is modelled as a function of the computed
sum so that the mismatch case is expressible. -/
def emitStage (variant : String) (threads : Int) (N : Nat)
    (bins minv maxv : Int) (seed sumHist : Nat) : RepOutcome :=
  .emit ⟨"threads", variant, threads, N, bins, minv, maxv, seed, sumHist⟩

/-- One repetition of `hist_threads.cpp` (lines 99–221): generate the dataset
over the ceil-chunk partition, count it with the chosen variant, and emit the
record with `sum_hist` summed over the `bins` cells. -/
def threadsRepRow (gen : Nat → Nat → Int) (variant : String) (seed N : Nat)
    (minv maxv : Int) (T r : Nat) : Row :=
  let bins : Int := maxv - minv + 1
  let data := threadsGen gen seed r N T
  ⟨"threads", variant, (T : Int), N, bins, minv, maxv, seed,
    histSum (variantHist variant data minv N T) bins.toNat⟩

/-- Whole-process model of `hist_threads.cpp` `main` (without CLI parsing):
swap the range if inverted, compute `bins`, coerce a non-positive thread
count to 4, reject an unsupported variant with exit status 2 *before* the
repetition loop, then run `rep` independent repetitions. -/
def threadsMain (gen : Nat → Nat → Int) (c : Cfg) : RunOut :=
  let p := normRange c.minv c.maxv
  let T : Nat := (normThreads c.threads).toNat
  if variantOk c.variant then
    ⟨0, c.rep, (List.range c.rep).map (threadsRepRow gen c.variant c.seed c.N p.1 p.2 T)⟩
  else
    ⟨2, 0, []⟩

/-- One repetition's record of `hist_openmp.cpp` (team size `T`, balanced
`schedule(static)` partition). -/
def ompRepRow (gen : Nat → Nat → Int) (variant : String) (seed N : Nat)
    (minv maxv : Int) (T r : Nat) : Row :=
  let bins : Int := maxv - minv + 1
  let data := ompGen gen seed r N T
  ⟨"openmp", variant, (T : Int), N, bins, minv, maxv, seed,
    histSum (ompVariantHist variant data minv N T) bins.toNat⟩

/-- Repetition loop of `hist_openmp.cpp` `main` (lines 109–221), modelled by
recursion on the number `k` of repetitions still to run, `r` being the index
of the next repetition.  Each iteration first runs the generation phase
(counted by `genPhases`); the unsupported-variant check sits in the `else`
branch of the variant dispatch (lines 200–204), i.e. *after* that
repetition's generation phase, and returns 2 from `main`. -/
def ompReps (gen : Nat → Nat → Int) (variant : String) (seed N : Nat)
    (minv maxv : Int) (T : Nat) : Nat → Nat → RunOut
  | _, 0 => ⟨0, 0, []⟩
  | r, k + 1 =>
    if variantOk variant then
      let rest := ompReps gen variant seed N minv maxv T (r + 1) k
      ⟨rest.exitCode, rest.genPhases + 1,
        ompRepRow gen variant seed N minv maxv T r :: rest.recs⟩
    else
      ⟨2, 1, []⟩

/-- Whole-process model of `hist_openmp.cpp` `main` (without CLI parsing):
swap the range if inverted, compute `bins`, fix the team size (requested
count if positive, otherwise the runtime default `defT`), then run the
repetition loop. -/
def ompMain (gen : Nat → Nat → Int) (defT : Nat) (c : Cfg) : RunOut :=
  let p := normRange c.minv c.maxv
  ompReps gen c.variant c.seed c.N p.1 p.2 (ompTeam defT c.threads) 0 c.rep

/-- Discriminator of the fatal outcome. -/
def RepOutcome.isFatal : RepOutcome → Bool
  | .emit _ => false
  | .fatal _ => true

/-! ## Concrete generator: `std::mt19937_64` and
`std::uniform_int_distribution`

`mt19937_64` is the 64-bit Mersenne twister with the standard parameters
(n = 312, m = 156, r = 31, a = B5026F5AA96619E9, u = 29, s = 17, t = 37,
l = 43, f = 6364136223846793005).  `uniform_int_distribution` follows
libstdc++'s downscaling algorithm for a 64-bit source engine and a target
range smaller than the engine's range: with `uerange = maxv - minv + 1`,
`scaling = (2^64 - 1) / uerange` and `past = uerange * scaling`, raw engine
outputs are drawn until one is `< past`, which is then divided by `scaling`
and shifted by `minv`. -/

/-- State initialization of `mt19937_64`: `mt[0] = seed`,
`mt[i] = f * (mt[i-1] xor (mt[i-1] >> 62)) + i` (mod `2^64`). -/
def mtInit (seed : Nat) : List Nat :=
  (((List.range 311).foldl
      (fun (p : Nat × List Nat) i =>
        let x := (6364136223846793005 * (p.1 ^^^ (p.1 >>> 62)) + (i + 1)) % U64
        (x, x :: p.2))
      (seed % U64, [seed % U64])).2).reverse

/-- Upper mask `~((1 << 31) - 1)` of the twist. -/
def mtUpper : Nat := 0xFFFFFFFF80000000

/-- Lower mask `(1 << 31) - 1` of the twist. -/
def mtLower : Nat := 0x7FFFFFFF

/-- One in-place step of the twist at position `i`. -/
def twistStep (mt : List Nat) (i : Nat) : List Nat :=
  let x := ((mt.getD i 0) &&& mtUpper) ||| ((mt.getD ((i + 1) % 312) 0) &&& mtLower)
  let xA := (x >>> 1) ^^^ (if x % 2 = 1 then 0xB5026F5AA96619E9 else 0)
  mt.set i ((mt.getD ((i + 156) % 312) 0) ^^^ xA)

/-- The full twist (state transition run before the first output and then
every 312 outputs). -/
def mtTwist (mt : List Nat) : List Nat :=
  (List.range 312).foldl twistStep mt

/-- Output tempering of `mt19937_64`. -/
def mtTemper (y : Nat) : Nat :=
  let y1 := y ^^^ ((y >>> 29) &&& 0x5555555555555555)
  let y2 := y1 ^^^ ((y1 <<< 17) &&& 0x71D67FFFEDA60000)
  let y3 := y2 ^^^ ((y2 <<< 37) &&& 0xFFF7EEE000000000)
  y3 ^^^ (y3 >>> 43)

/-- The `k`-th raw output of an `mt19937_64` seeded with `seed`
(valid for `k < 312`, which covers every use in this file). -/
def mtRaw (seed k : Nat) : Nat :=
  mtTemper ((mtTwist (mtInit seed)).getD k 0)

/-- `scaling` of libstdc++'s downscaling algorithm. -/
def distScal (minv maxv : Int) : Nat :=
  (U64 - 1) / ((maxv - minv).toNat + 1)

/-- `past` of libstdc++'s downscaling algorithm. -/
def distPast (minv maxv : Int) : Nat :=
  ((maxv - minv).toNat + 1) * distScal minv maxv

/-- One `dist(rng)` call: starting at raw-stream position `p`, draw raw
outputs until one is `< past` (fuel-bounded; the fuel is never exhausted in
the concrete evaluations of this file), returning the downscaled draw and
the next stream position. -/
def distCall (raw : Nat → Nat) (scal past : Nat) : Nat → Nat → Nat × Nat
  | 0, p => (0, p)
  | fuel + 1, p =>
    if raw p < past then (raw p / scal, p + 1)
    else distCall raw scal past fuel (p + 1)

/-- Raw-stream position before the `k`-th `dist(rng)` call. -/
def distPos (raw : Nat → Nat) (scal past : Nat) : Nat → Nat
  | 0 => 0
  | k + 1 => (distCall raw scal past 312 (distPos raw scal past k)).2

/-- The `k`-th value of `dist(rng)` for
`uniform_int_distribution<int> dist(minv, maxv)` over an `mt19937_64`
seeded with `seed` — the concrete instance of the abstract generator
streams used by the dataset models. -/
def mtStream (minv maxv : Int) (seed k : Nat) : Int :=
  minv +
    ((distCall (mtRaw seed) (distScal minv maxv) (distPast minv maxv) 312
        (distPos (mtRaw seed) (distScal minv maxv) (distPast minv maxv) k)).1 : Nat)

/-- Generator-range property: every value of every stream lies in
`[minv, maxv]` — the contract of `uniform_int_distribution<int>(minv, maxv)`. -/
def GenInRange (gen : Nat → Nat → Int) (minv maxv : Int) : Prop :=
  ∀ s k, minv ≤ gen s k ∧ gen s k ≤ maxv

/-- Concrete generator for closed witness instantiations: every stream is
constantly `0` (a legitimate instance of `GenInRange · 0 maxv`). -/
def gen0 : Nat → Nat → Int := fun _ _ => 0

/-- Concrete configuration used by several witnesses:
`N = 5`, range `[0, 3]`, seed 7, 2 repetitions, variant `private`,
2 threads. -/
def cfgW : Cfg := ⟨5, 0, 3, 7, 2, "private", 2⟩

/-- Concrete configuration with an unsupported variant name. -/
def cfgBadVariant : Cfg := ⟨3, 0, 1, 0, 1, "foo", 2⟩

/-- Concrete configuration with a non-positive requested thread count. -/
def cfgNegThreads : Cfg := ⟨3, 0, 1, 0, 1, "private", -1⟩

/-! ## Histogram-sum infrastructure -/

/-- Sum of the first `j` block lengths — the buffer offset at which worker
`j`'s block starts. -/
def sumLens (lens : Nat → Nat) (j : Nat) : Nat :=
  ((List.range j).map lens).sum

theorem sumLens_succ (lens : Nat → Nat) (j : Nat) :
    sumLens lens (j + 1) = sumLens lens j + lens j := by
  simp [sumLens, List.range_succ]

theorem sumLens_mono (lens : Nat → Nat) {j j' : Nat} (h : j ≤ j') :
    sumLens lens j ≤ sumLens lens j' := by
  induction h with
  | refl => exact le_refl _
  | step _ ih => exact le_trans ih (by rw [sumLens_succ]; omega)

theorem histSum_succ (h : Nat → Nat) (n : Nat) :
    histSum h (n + 1) = histSum h n + h n := by
  simp [histSum, List.range_succ]

theorem histSum_congr (f g : Nat → Nat) (n : Nat)
    (hfg : ∀ b, b < n → f b = g b) : histSum f n = histSum g n := by
  induction n with
  | zero => rfl
  | succ m ih =>
    rw [histSum_succ, histSum_succ, ih fun b hb => hfg b (Nat.lt_succ_of_lt hb),
      hfg m (Nat.lt_succ_self m)]

theorem histSum_zeroHist (bins : Nat) : histSum zeroHist bins = 0 := by
  induction bins with
  | zero => rfl
  | succ m ih => rw [histSum_succ, ih]; rfl

theorem bump_apply_ne (h : Nat → Nat) {i b : Nat} (hb : b ≠ i) :
    bump h i b = h b := by
  simp [bump, hb]

theorem bump_apply_self (h : Nat → Nat) (i : Nat) :
    bump h i i = h i + 1 := by
  simp [bump]

theorem histSum_bump (h : Nat → Nat) {i bins : Nat} (hi : i < bins) :
    histSum (bump h i) bins = histSum h bins + 1 := by
  induction bins with
  | zero => omega
  | succ m ih =>
    rcases Nat.lt_succ_iff_lt_or_eq.mp hi with h' | h'
    · rw [histSum_succ, histSum_succ, ih h',
        bump_apply_ne h (by omega : m ≠ i)]
      omega
    · subst h'
      rw [histSum_succ, histSum_succ, bump_apply_self,
        histSum_congr (bump h i) h i fun b hb => bump_apply_ne h (by omega : b ≠ i)]
      omega

theorem countRange_zero (data : List Int) (minv : Int) (h : Nat → Nat)
    (start : Nat) : countRange data minv h start 0 = h := rfl

theorem countRange_succ (data : List Int) (minv : Int) (h : Nat → Nat)
    (start len : Nat) :
    countRange data minv h start (len + 1) =
      bump (countRange data minv h start len)
        (idxOf minv (data.getD (start + len) 0)) := by
  simp [countRange, List.range_succ]

theorem histSum_countRange (data : List Int) (minv : Int) (h : Nat → Nat)
    (start : Nat) {len bins : Nat}
    (hb : ∀ k, k < len → idxOf minv (data.getD (start + k) 0) < bins) :
    histSum (countRange data minv h start len) bins = histSum h bins + len := by
  induction len with
  | zero => rfl
  | succ m ih =>
    rw [countRange_succ,
      histSum_bump _ (hb m (Nat.lt_succ_self m)),
      ih fun k hk => hb k (Nat.lt_succ_of_lt hk)]
    omega

theorem countRange_add (data : List Int) (minv : Int) (h : Nat → Nat)
    (start len b : Nat) :
    countRange data minv h start len b =
      h b + countRange data minv zeroHist start len b := by
  induction len with
  | zero => simp [countRange_zero, zeroHist]
  | succ m ih =>
    rw [countRange_succ, countRange_succ]
    by_cases hb : b = idxOf minv (data.getD (start + m) 0)
    · subst hb; rw [bump_apply_self, bump_apply_self, ih]; omega
    · rw [bump_apply_ne _ hb, bump_apply_ne _ hb, ih]

theorem foldCount_succ (data : List Int) (minv : Int) (starts lens : Nat → Nat)
    (T : Nat) :
    foldCount data minv starts lens (T + 1) =
      countRange data minv (foldCount data minv starts lens T)
        (starts T) (lens T) := by
  simp [foldCount, List.range_succ]

theorem mergeCount_succ (data : List Int) (minv : Int) (starts lens : Nat → Nat)
    (T b : Nat) :
    mergeCount data minv starts lens (T + 1) b =
      mergeCount data minv starts lens T b +
        countRange data minv zeroHist (starts T) (lens T) b := by
  simp [mergeCount, List.range_succ]

/-- Sequentialized shared counting and the private-then-merge strategy give
the same histogram: each bin's final count is the sum of the per-worker
counts, regardless of synchronization discipline. -/
theorem foldCount_eq_mergeCount (data : List Int) (minv : Int)
    (starts lens : Nat → Nat) (T : Nat) :
    foldCount data minv starts lens T = mergeCount data minv starts lens T := by
  funext b
  induction T with
  | zero => simp [foldCount, mergeCount, zeroHist]
  | succ m ih =>
    rw [foldCount_succ, mergeCount_succ, countRange_add, ih]

theorem histSum_foldCount (data : List Int) (minv : Int)
    (starts lens : Nat → Nat) {T bins : Nat}
    (hb : ∀ t k, t < T → k < lens t →
      idxOf minv (data.getD (starts t + k) 0) < bins) :
    histSum (foldCount data minv starts lens T) bins = sumLens lens T := by
  induction T with
  | zero => simpa [foldCount, sumLens] using histSum_zeroHist bins
  | succ m ih =>
    rw [foldCount_succ,
      histSum_countRange _ _ _ _ (fun k hk => hb m k (Nat.lt_succ_self m) hk),
      ih fun t k ht hk => hb t k (Nat.lt_succ_of_lt ht) hk,
      sumLens_succ]

theorem foldCount_congr (data : List Int) (minv : Int)
    {starts₁ lens₁ starts₂ lens₂ : Nat → Nat} (T : Nat)
    (hs : ∀ t, t < T → starts₁ t = starts₂ t)
    (hl : ∀ t, t < T → lens₁ t = lens₂ t) :
    foldCount data minv starts₁ lens₁ T = foldCount data minv starts₂ lens₂ T := by
  induction T with
  | zero => rfl
  | succ m ih =>
    rw [foldCount_succ, foldCount_succ,
      ih (fun t ht => hs t (Nat.lt_succ_of_lt ht))
        (fun t ht => hl t (Nat.lt_succ_of_lt ht)),
      hs m (Nat.lt_succ_self m), hl m (Nat.lt_succ_self m)]

theorem foldCount_zero_lens (data : List Int) (minv : Int)
    (starts lens : Nat → Nat) {T : Nat} (h0 : ∀ t, t < T → lens t = 0) :
    foldCount data minv starts lens T = zeroHist := by
  induction T with
  | zero => rfl
  | succ m ih =>
    rw [foldCount_succ, h0 m (Nat.lt_succ_self m), countRange_zero,
      ih fun t ht => h0 t (Nat.lt_succ_of_lt ht)]

/-! ## Arithmetic facts about the ceil-chunk partition -/

theorem chunk_eq {N T : Nat} (_hT : 1 ≤ T) (hNT : N + T ≤ U64) :
    chunk N T = (N + T - 1) / T := by
  unfold chunk
  rw [Nat.mod_eq_of_lt (by unfold U64 at hNT ⊢; omega)]

theorem chunk_mul_le {N T : Nat} (hT : 1 ≤ T) (hNT : N + T ≤ U64) :
    T * chunk N T ≤ N + T - 1 := by
  rw [chunk_eq hT hNT, Nat.mul_comm]
  exact Nat.div_mul_le_self (N + T - 1) T

theorem le_mul_chunk {N T : Nat} (hT : 1 ≤ T) (hNT : N + T ≤ U64) :
    N ≤ T * chunk N T := by
  rw [chunk_eq hT hNT]
  have h1 := Nat.div_add_mod (N + T - 1) T
  have h2 : (N + T - 1) % T < T := Nat.mod_lt _ (by omega)
  omega

theorem tStart_eq {N T t : Nat} (hT : 1 ≤ T) (hNT : N + T ≤ U64)
    (ht : t ≤ T) : tStart N T t = t * chunk N T := by
  unfold tStart
  have h1 : t * chunk N T ≤ T * chunk N T := Nat.mul_le_mul_right _ ht
  have h2 := chunk_mul_le hT hNT
  exact Nat.mod_eq_of_lt (by unfold U64 at hNT ⊢; omega)

theorem tEnd_eq {N T t : Nat} (hT : 1 ≤ T) (hNT : N + T ≤ U64)
    (ht : t < T) : tEnd N T t = min N ((t + 1) * chunk N T) := by
  unfold tEnd
  have h1 : (t + 1) * chunk N T ≤ T * chunk N T := Nat.mul_le_mul_right _ ht
  have h2 := chunk_mul_le hT hNT
  rw [Nat.mod_eq_of_lt (by unfold U64 at hNT ⊢; omega)]

theorem tLen_eq {N T t : Nat} (hT : 1 ≤ T) (hNT : N + T ≤ U64)
    (ht : t < T) :
    tLen N T t = min N ((t + 1) * chunk N T) - t * chunk N T := by
  unfold tLen
  rw [tEnd_eq hT hNT ht, tStart_eq hT hNT (le_of_lt ht)]

/-- Telescoping: the first `j` ceil-chunk range lengths sum to
`min N (j * c)`. -/
theorem sum_min_chunk (N c : Nat) (j : Nat) :
    sumLens (fun t => min N ((t + 1) * c) - t * c) j = min N (j * c) := by
  induction j with
  | zero => simp [sumLens]
  | succ m ih =>
    rw [sumLens_succ, ih]
    have h1 : (m + 1) * c = m * c + c := Nat.succ_mul m c
    omega

theorem sumLens_tLen {N T : Nat} (hT : 1 ≤ T) (hNT : N + T ≤ U64)
    {j : Nat} (hj : j ≤ T) :
    sumLens (tLen N T) j = min N (j * chunk N T) := by
  rw [← sum_min_chunk N (chunk N T) j]
  unfold sumLens
  refine congrArg List.sum (List.map_congr_left fun t ht => ?_)
  exact tLen_eq hT hNT (lt_of_lt_of_le (List.mem_range.mp ht) hj)

theorem sumLens_tLen_all {N T : Nat} (hT : 1 ≤ T) (hNT : N + T ≤ U64) :
    sumLens (tLen N T) T = N := by
  rw [sumLens_tLen hT hNT (le_refl T),
    Nat.min_eq_left (le_mul_chunk hT hNT), ]

/-! ## Arithmetic facts about the balanced `schedule(static)` partition -/

theorem sumLens_oLen (N T : Nat) (j : Nat) :
    sumLens (oLen N T) j = oStart N T j := by
  induction j with
  | zero => simp [sumLens, oStart]
  | succ m ih =>
    rw [sumLens_succ, ih]
    simp only [oStart, oLen]
    have h1 : (m + 1) * (N / T) = m * (N / T) + N / T := Nat.succ_mul m (N / T)
    rcases Nat.lt_or_ge m (N % T) with h | h
    · simp only [if_pos h]
      omega
    · simp only [if_neg (Nat.not_lt.mpr h)]
      omega

theorem sumLens_oLen_all {N T : Nat} (hT : 1 ≤ T) :
    sumLens (oLen N T) T = N := by
  rw [sumLens_oLen]
  simp only [oStart]
  have h1 : N % T < T := Nat.mod_lt _ (by omega)
  have h2 : T * (N / T) + N % T = N := Nat.div_add_mod N T
  have h3 : T * (N / T) = N / T * T := Nat.mul_comm _ _
  omega

/-! ## Access into concatenated worker blocks -/

theorem blocks_succ (lens : Nat → Nat) (vals : Nat → Nat → Int) (T : Nat) :
    blocks lens vals (T + 1) =
      blocks lens vals T ++ (List.range (lens T)).map (vals T) := by
  unfold blocks
  rw [List.range_succ, List.flatMap_append]
  simp

theorem blocks_length (lens : Nat → Nat) (vals : Nat → Nat → Int) (T : Nat) :
    (blocks lens vals T).length = sumLens lens T := by
  induction T with
  | zero => rfl
  | succ m ih =>
    rw [blocks_succ, List.length_append, ih, sumLens_succ, List.length_map,
      List.length_range]

theorem rangeMap_getD (f : Nat → Int) {len k : Nat} (hk : k < len) :
    ((List.range len).map f).getD k 0 = f k := by
  simp [List.getD_eq_getElem?_getD, List.getElem?_map, List.getElem?_range hk]

theorem blocks_getD (lens : Nat → Nat) (vals : Nat → Nat → Int)
    {T t k : Nat} (ht : t < T) (hk : k < lens t) :
    (blocks lens vals T).getD (sumLens lens t + k) 0 = vals t k := by
  induction T with
  | zero => omega
  | succ m ih =>
    rw [blocks_succ]
    rcases Nat.lt_succ_iff_lt_or_eq.mp ht with h | h
    · have hlt : sumLens lens t + k < (blocks lens vals m).length := by
        rw [blocks_length]
        calc sumLens lens t + k < sumLens lens t + lens t := by omega
        _ = sumLens lens (t + 1) := (sumLens_succ lens t).symm
        _ ≤ sumLens lens m := sumLens_mono lens h
      rw [List.getD_eq_getElem?_getD, List.getElem?_append_left hlt,
        ← List.getD_eq_getElem?_getD]
      exact ih h
    · subst h
      have hge : (blocks lens vals t).length ≤ sumLens lens t + k := by
        rw [blocks_length]; omega
      rw [List.getD_eq_getElem?_getD, List.getElem?_append_right hge,
        ← List.getD_eq_getElem?_getD, blocks_length]
      have : sumLens lens t + k - sumLens lens t = k := by omega
      rw [this]
      exact rangeMap_getD _ hk

theorem blocks_congr {lens₁ lens₂ : Nat → Nat} {vals₁ vals₂ : Nat → Nat → Int}
    (T : Nat) (hl : ∀ t, t < T → lens₁ t = lens₂ t)
    (hv : ∀ t k, t < T → k < lens₁ t → vals₁ t k = vals₂ t k) :
    blocks lens₁ vals₁ T = blocks lens₂ vals₂ T := by
  induction T with
  | zero => rfl
  | succ m ih =>
    rw [blocks_succ, blocks_succ,
      ih (fun t ht => hl t (Nat.lt_succ_of_lt ht))
        (fun t k ht hk => hv t k (Nat.lt_succ_of_lt ht) hk),
      ← hl m (Nat.lt_succ_self m)]
    refine congrArg _ (List.map_congr_left fun k hk => ?_)
    exact hv m k (Nat.lt_succ_self m) (List.mem_range.mp hk)

/-! ## Dataset access and bin-index bounds -/

theorem threadsGen_getD (gen : Nat → Nat → Int) (seed r : Nat)
    {N T t k : Nat} (hT : 1 ≤ T) (hNT : N + T ≤ U64)
    (ht : t < T) (hk : k < tLen N T t) :
    (threadsGen gen seed r N T).getD (tStart N T t + k) 0 =
      gen (tseed seed t r) k := by
  have h1 : tStart N T t = sumLens (tLen N T) t := by
    have h2 := tLen_eq hT hNT ht
    have h3 : tStart N T t = t * chunk N T := tStart_eq hT hNT (le_of_lt ht)
    have h4 : sumLens (tLen N T) t = min N (t * chunk N T) :=
      sumLens_tLen hT hNT (le_of_lt ht)
    have h5 : (t + 1) * chunk N T = t * chunk N T + chunk N T :=
      Nat.succ_mul t (chunk N T)
    omega
  rw [h1]
  exact blocks_getD (tLen N T) (fun t => gen (tseed seed t r)) ht hk

theorem ompGen_getD (gen : Nat → Nat → Int) (seed r : Nat)
    {N T t k : Nat} (ht : t < T) (hk : k < oLen N T t) :
    (ompGen gen seed r N T).getD (oStart N T t + k) 0 =
      gen (tseed seed t r) k := by
  rw [← sumLens_oLen]
  exact blocks_getD (oLen N T) (fun t => gen (tseed seed t r)) ht hk

theorem idxOf_lt {minv maxv v : Int} (h1 : minv ≤ v) (h2 : v ≤ maxv) :
    idxOf minv v < (maxv - minv + 1).toNat := by
  simp only [idxOf]
  omega

/-! ## Variant dispatch -/

theorem variantOk_cases {v : String} (hv : variantOk v = true) :
    v = "private" ∨ v = "atomic" ∨ v = "mutex" := by
  simp only [variantOk, Bool.or_eq_true, beq_iff_eq] at hv
  tauto

theorem variantHist_private (data : List Int) (minv : Int) (N T : Nat) :
    variantHist "private" data minv N T = privateHist data minv N T := rfl

theorem variantHist_atomic (data : List Int) (minv : Int) (N T : Nat) :
    variantHist "atomic" data minv N T = atomicHist data minv N T := rfl

theorem variantHist_mutex (data : List Int) (minv : Int) (N T : Nat) :
    variantHist "mutex" data minv N T = mutexHist data minv N T := rfl

theorem ompVariantHist_private (data : List Int) (minv : Int) (N T : Nat) :
    ompVariantHist "private" data minv N T = ompPrivateHist data minv N T := rfl

theorem ompVariantHist_atomic (data : List Int) (minv : Int) (N T : Nat) :
    ompVariantHist "atomic" data minv N T = ompAtomicHist data minv N T := rfl

theorem ompVariantHist_mutex (data : List Int) (minv : Int) (N T : Nat) :
    ompVariantHist "mutex" data minv N T = ompMutexHist data minv N T := rfl

/-! ## Conservation of the bin sum, per backend -/

theorem histSum_threads_variant (gen : Nat → Nat → Int) (seed r : Nat)
    {v : String} {minv maxv : Int} {N T : Nat}
    (hv : variantOk v = true) (hr : GenInRange gen minv maxv)
    (hT : 1 ≤ T) (hNT : N + T ≤ U64) :
    histSum (variantHist v (threadsGen gen seed r N T) minv N T)
      ((maxv - minv + 1).toNat) = N := by
  have hbound : ∀ t k, t < T → k < tLen N T t →
      idxOf minv ((threadsGen gen seed r N T).getD (tStart N T t + k) 0) <
        (maxv - minv + 1).toNat := by
    intro t k ht hk
    rw [threadsGen_getD gen seed r hT hNT ht hk]
    exact idxOf_lt (hr _ k).1 (hr _ k).2
  have hsum : histSum
      (foldCount (threadsGen gen seed r N T) minv (tStart N T) (tLen N T) T)
      ((maxv - minv + 1).toNat) = N := by
    rw [histSum_foldCount _ _ _ _ hbound, sumLens_tLen_all hT hNT]
  rcases variantOk_cases hv with h | h | h <;> subst h
  · rw [variantHist_private]
    unfold privateHist
    rw [← foldCount_eq_mergeCount]
    exact hsum
  · rw [variantHist_atomic]
    exact hsum
  · rw [variantHist_mutex]
    exact hsum

theorem histSum_omp_variant (gen : Nat → Nat → Int) (seed r : Nat)
    {v : String} {minv maxv : Int} {N T : Nat}
    (hv : variantOk v = true) (hr : GenInRange gen minv maxv)
    (hT : 1 ≤ T) :
    histSum (ompVariantHist v (ompGen gen seed r N T) minv N T)
      ((maxv - minv + 1).toNat) = N := by
  have hbound : ∀ t k, t < T → k < oLen N T t →
      idxOf minv ((ompGen gen seed r N T).getD (oStart N T t + k) 0) <
        (maxv - minv + 1).toNat := by
    intro t k ht hk
    rw [ompGen_getD gen seed r ht hk]
    exact idxOf_lt (hr _ k).1 (hr _ k).2
  have hsum : histSum
      (foldCount (ompGen gen seed r N T) minv (oStart N T) (oLen N T) T)
      ((maxv - minv + 1).toNat) = N := by
    rw [histSum_foldCount _ _ _ _ hbound, sumLens_oLen_all hT]
  rcases variantOk_cases hv with h | h | h <;> subst h
  · rw [ompVariantHist_private]
    unfold ompPrivateHist
    rw [← foldCount_eq_mergeCount]
    exact hsum
  · rw [ompVariantHist_atomic]
    exact hsum
  · rw [ompVariantHist_mutex]
    exact hsum

/-! ## Main-level characterizations -/

theorem normRange_le (a b : Int) : (normRange a b).1 ≤ (normRange a b).2 := by
  simp only [normRange]
  split <;> omega

theorem normThreads_toNat_pos (t : Int) : 1 ≤ (normThreads t).toNat := by
  simp only [normThreads]
  split <;> omega

theorem normThreads_toNat_le {t : Int} (h : t ≤ 2147483648) :
    (normThreads t).toNat ≤ 2147483648 := by
  simp only [normThreads]
  split <;> omega

theorem threadsMain_ok (gen : Nat → Nat → Int) (c : Cfg)
    (hv : variantOk c.variant = true) :
    threadsMain gen c = ⟨0, c.rep, (List.range c.rep).map
      (threadsRepRow gen c.variant c.seed c.N (normRange c.minv c.maxv).1
        (normRange c.minv c.maxv).2 ((normThreads c.threads).toNat))⟩ := by
  simp only [threadsMain, if_pos hv]

theorem ompReps_ok (gen : Nat → Nat → Int) (variant : String) (seed N : Nat)
    (minv maxv : Int) (T : Nat) (hv : variantOk variant = true) :
    ∀ k r, ompReps gen variant seed N minv maxv T r k =
      ⟨0, k, (List.range k).map fun j =>
        ompRepRow gen variant seed N minv maxv T (r + j)⟩ := by
  intro k
  induction k with
  | zero => intro r; rfl
  | succ m ih =>
    intro r
    simp only [ompReps, if_pos hv, ih (r + 1)]
    refine congrArg (RunOut.mk 0 (m + 1)) ?_
    rw [List.range_succ_eq_map, List.map_cons, List.map_map]
    refine congrArg₂ List.cons (by rw [Nat.add_zero]) ?_
    refine List.map_congr_left fun j hj => ?_
    simp only [Function.comp_apply]
    congr 1
    omega

theorem ompMain_ok (gen : Nat → Nat → Int) (defT : Nat) (c : Cfg)
    (hv : variantOk c.variant = true) :
    ompMain gen defT c = ⟨0, c.rep, (List.range c.rep).map fun r =>
      ompRepRow gen c.variant c.seed c.N (normRange c.minv c.maxv).1
        (normRange c.minv c.maxv).2 (ompTeam defT c.threads) r⟩ := by
  simp only [ompMain, ompReps_ok gen c.variant c.seed c.N _ _ _ hv, Nat.zero_add]

/-! ## Claim theorems -/

/-- Claim C1: for every valid run configuration (any `N`, any range after
normalization, any seed, any variant among `private`/`atomic`/`mutex`, any
thread count, any repetition index) the counting phase produces a histogram
whose bins sum exactly to `N`: the `sum_hist` value of every emitted record
equals `N`, on both backends.  Hypotheses delimit valid configurations:
`N` fits the `long long` CLI domain (`N < 2^63`), the requested thread count
fits `int` (`≤ 2^31`), the OpenMP default team is at least 1, and the
generator streams respect the `uniform_int_distribution` range contract. -/
theorem c1_sum_conservation (gen : Nat → Nat → Int) (c : Cfg) (defT : Nat)
    (hv : variantOk c.variant = true)
    (hr : GenInRange gen (normRange c.minv c.maxv).1 (normRange c.minv c.maxv).2)
    (hN : c.N < 9223372036854775808) (hth : c.threads ≤ 2147483648)
    (hdefT : 1 ≤ defT) (hdefT2 : defT ≤ 2147483648) :
    ((threadsMain gen c).recs.all fun row => row.sumHist == c.N) = true ∧
    ((ompMain gen defT c).recs.all fun row => row.sumHist == c.N) = true := by
  have hT1 : 1 ≤ (normThreads c.threads).toNat := normThreads_toNat_pos c.threads
  have hT2 : (normThreads c.threads).toNat ≤ 2147483648 :=
    normThreads_toNat_le hth
  have hU : U64 = 18446744073709551616 := rfl
  have hNT : c.N + (normThreads c.threads).toNat ≤ U64 := by omega
  constructor
  · rw [threadsMain_ok gen c hv, List.all_eq_true]
    intro row hrow
    simp only [List.mem_map, List.mem_range] at hrow
    obtain ⟨r, _, hrow⟩ := hrow
    subst hrow
    exact beq_iff_eq.mpr (histSum_threads_variant gen c.seed r hv hr hT1 hNT)
  · have hTomp : 1 ≤ ompTeam defT c.threads := by
      simp only [ompTeam]
      split <;> omega
    rw [ompMain_ok gen defT c hv, List.all_eq_true]
    intro row hrow
    simp only [List.mem_map, List.mem_range] at hrow
    obtain ⟨r, _, hrow⟩ := hrow
    subst hrow
    exact beq_iff_eq.mpr (histSum_omp_variant gen c.seed r hv hr hTomp)

theorem gen0_inRange {minv maxv : Int} (h1 : minv ≤ 0) (h2 : 0 ≤ maxv) :
    GenInRange gen0 minv maxv := fun _ _ => ⟨h1, h2⟩

/-- Witness for C1 at a concrete configuration. -/
theorem c1_sum_conservation_witness :
    ((threadsMain gen0 cfgW).recs.all fun row => row.sumHist == cfgW.N) = true ∧
    ((ompMain gen0 4 cfgW).recs.all fun row => row.sumHist == cfgW.N) = true :=
  c1_sum_conservation gen0 cfgW 4 (by decide)
    (gen0_inRange (by decide) (by decide)) (by decide) (by decide) (by decide)
    (by decide)

/-- Claim C3: for a fixed underlying dataset (any dataset, in particular the
generated one for fixed seed, `N`, range, thread count and repetition, on
either backend), the `private`, `atomic` and `mutex` counting variants
produce identical histogram contents bin-for-bin, on the `std::thread`
backend and on the OpenMP backend alike. -/
theorem c3_variant_equivalence (data : List Int) (minv : Int) (N T : Nat) :
    (variantHist "private" data minv N T = variantHist "atomic" data minv N T ∧
      variantHist "atomic" data minv N T = variantHist "mutex" data minv N T) ∧
    (ompVariantHist "private" data minv N T = ompVariantHist "atomic" data minv N T ∧
      ompVariantHist "atomic" data minv N T = ompVariantHist "mutex" data minv N T) := by
  refine ⟨⟨?_, rfl⟩, ⟨?_, rfl⟩⟩
  · rw [variantHist_private, variantHist_atomic]
    exact (foldCount_eq_mergeCount data minv (tStart N T) (tLen N T) T).symm
  · rw [ompVariantHist_private, ompVariantHist_atomic]
    exact (foldCount_eq_mergeCount data minv (oStart N T) (oLen N T) T).symm

/-- Claim C4, amended: the post-counting stage of a repetition
unconditionally formats the computed `sum_hist` into an ordinary CSV record
— it performs no comparison of `sum_hist` against `N` and has no fatal-fault
path, so a mismatched sum would be emitted exactly like a valid benchmark
point (detecting it is left to whoever reads the record). -/
theorem c4_emission_unconditional (variant : String) (threads : Int) (N : Nat)
    (bins minv maxv : Int) (seed sumHist : Nat) :
    emitStage variant threads N bins minv maxv seed sumHist =
      RepOutcome.emit ⟨"threads", variant, threads, N, bins, minv, maxv, seed, sumHist⟩ ∧
    (emitStage variant threads N bins minv maxv seed sumHist).isFatal = false :=
  ⟨rfl, rfl⟩

/-- Counterexample to claim C4 as stated: with `N = 10` and a computed
`sum_hist` of 7 (a mismatch), the emission stage still produces an ordinary
valid-looking record carrying `sum_hist = 7` and no fatal data-integrity
fault. -/
theorem c4_counterexample :
    emitStage "private" 4 10 10 0 9 42 7 =
      RepOutcome.emit ⟨"threads", "private", 4, 10, 10, 0, 9, 42, 7⟩ ∧
    (emitStage "private" 4 10 10 0 9 42 7).isFatal = false ∧
    ((7 : Nat) == 10) = false := by
  refine ⟨rfl, rfl, by decide⟩

/-- Claim C5, amended: an unsupported variant name aborts the run with exit
status 2 and no emitted record on both backends, but only the `std::thread`
backend checks it before the repetition loop (zero generation phases); the
OpenMP backend performs the check inside the first repetition *after* the
generation phase, so exactly one data-generation phase runs before the
abort. -/
theorem c5_variant_rejection (gen : Nat → Nat → Int) (defT : Nat) (c : Cfg)
    (hv : variantOk c.variant = false) (hrep : 1 ≤ c.rep) :
    threadsMain gen c = ⟨2, 0, []⟩ ∧
    (ompMain gen defT c).exitCode = 2 ∧
    (ompMain gen defT c).recs = [] ∧
    (ompMain gen defT c).genPhases = 1 := by
  have hv' : ¬ (variantOk c.variant = true) := by simp [hv]
  constructor
  · simp only [threadsMain, if_neg hv']
  · obtain ⟨m, hm⟩ : ∃ m, c.rep = m + 1 := ⟨c.rep - 1, by omega⟩
    simp only [ompMain, hm, ompReps, if_neg hv']
    exact ⟨trivial, trivial, trivial⟩

/-- Witness for C5 at a concrete unsupported variant. -/
theorem c5_variant_rejection_witness :
    threadsMain gen0 cfgBadVariant = ⟨2, 0, []⟩ ∧
    (ompMain gen0 4 cfgBadVariant).exitCode = 2 ∧
    (ompMain gen0 4 cfgBadVariant).recs = [] ∧
    (ompMain gen0 4 cfgBadVariant).genPhases = 1 :=
  c5_variant_rejection gen0 4 cfgBadVariant (by decide) (by decide)

/-- Counterexample to claim C5 as stated: for the OpenMP backend with
variant `"foo"` and one repetition, the process does exit with status 2 and
emits no record, but one generation phase has already run — the rejection
does not happen before the first generation phase. -/
theorem c5_counterexample :
    (ompMain gen0 4 cfgBadVariant).exitCode = 2 ∧
    (ompMain gen0 4 cfgBadVariant).recs = [] ∧
    (ompMain gen0 4 cfgBadVariant).genPhases = 1 ∧
    ((ompMain gen0 4 cfgBadVariant).genPhases == 0) = false := by
  decide

/-- Claim C6, amended: a non-positive requested thread count is *not*
rejected: the `std::thread` backend silently coerces it to 4 and runs
normally (exit status 0, one record per repetition, `threads` field 4), and
the OpenMP backend ignores it, keeping the runtime-default team size. -/
theorem c6_threads_not_rejected (gen : Nat → Nat → Int) (defT : Nat) (c : Cfg)
    (hv : variantOk c.variant = true) (hth : c.threads ≤ 0) :
    (threadsMain gen c).exitCode = 0 ∧
    (threadsMain gen c).recs.length = c.rep ∧
    ((threadsMain gen c).recs.all fun row => row.threads == 4) = true ∧
    (ompMain gen defT c).exitCode = 0 ∧
    ompTeam defT c.threads = defT := by
  have h4 : normThreads c.threads = 4 := if_pos hth
  refine ⟨?_, ?_, ?_, ?_, ?_⟩
  · rw [threadsMain_ok gen c hv]
  · rw [threadsMain_ok gen c hv]
    simp
  · rw [threadsMain_ok gen c hv, List.all_eq_true]
    intro row hrow
    simp only [List.mem_map, List.mem_range] at hrow
    obtain ⟨r, _, hrow⟩ := hrow
    subst hrow
    refine beq_iff_eq.mpr ?_
    rw [h4]
    rfl
  · rw [ompMain_ok gen defT c hv]
  · simp only [ompTeam, if_neg (by omega : ¬ (0 < c.threads))]

/-- Witness for C6 at a concrete configuration with `threads = -1`. -/
theorem c6_threads_not_rejected_witness :
    (threadsMain gen0 cfgNegThreads).exitCode = 0 ∧
    (threadsMain gen0 cfgNegThreads).recs.length = cfgNegThreads.rep ∧
    ((threadsMain gen0 cfgNegThreads).recs.all fun row => row.threads == 4) = true ∧
    (ompMain gen0 4 cfgNegThreads).exitCode = 0 ∧
    ompTeam 4 cfgNegThreads.threads = 4 :=
  c6_threads_not_rejected gen0 4 cfgNegThreads (by decide) (by decide)

/-- Counterexample to claim C6 as stated: with requested thread count `-1`
(and a supported variant) the `std::thread` backend does not reject the
configuration: it exits with status 0 and emits an ordinary record whose
`threads` field shows the silent coercion to 4. -/
theorem c6_counterexample :
    (threadsMain gen0 cfgNegThreads).exitCode = 0 ∧
    (threadsMain gen0 cfgNegThreads).recs =
      [⟨"threads", "private", 4, 3, 2, 0, 1, 0, 3⟩] ∧
    ((threadsMain gen0 cfgNegThreads).exitCode == 0) = true := by
  decide

/-- Claim C9: running with inverted bounds `min = 10, max = 0` behaves
identically to running with `min = 0, max = 10`: the whole observable run
output (exit status, generation phases, every emitted record, hence the
dataset and histogram they are computed from) coincides on both backends,
and the emitted records carry `bins = 11`. -/
theorem c9_range_normalization (gen : Nat → Nat → Int) (defT N seed rep : Nat)
    (variant : String) (threads : Int) :
    threadsMain gen ⟨N, 10, 0, seed, rep, variant, threads⟩ =
      threadsMain gen ⟨N, 0, 10, seed, rep, variant, threads⟩ ∧
    ompMain gen defT ⟨N, 10, 0, seed, rep, variant, threads⟩ =
      ompMain gen defT ⟨N, 0, 10, seed, rep, variant, threads⟩ ∧
    ((threadsMain gen ⟨N, 10, 0, seed, rep, variant, threads⟩).recs.all
      fun row => row.bins == 11) = true := by
  have h1 : normRange (10 : Int) 0 = (0, 10) := by decide
  have h2 : normRange (0 : Int) 10 = (0, 10) := by decide
  refine ⟨?_, ?_, ?_⟩
  · simp only [threadsMain, h1, h2]
  · simp only [ompMain, h1, h2]
  · by_cases hv : variantOk variant = true
    · rw [threadsMain_ok gen _ hv, List.all_eq_true]
      intro row hrow
      simp only [List.mem_map, List.mem_range] at hrow
      obtain ⟨r, _, hrow⟩ := hrow
      subst hrow
      refine beq_iff_eq.mpr ?_
      simp only [h1]
      rfl
    · simp only [threadsMain, if_neg hv]
      rfl

/-- Claim C8: when the thread count `T` exceeds `N` (including `N = 0`) the
run does not crash: `chunk = ceil(N/T)` is well-defined (0 for `N = 0`,
1 otherwise), every worker with index `≥ N` has an empty range and its
counting loop performs zero increments (it returns the histogram unchanged),
the conservation invariant `sum(histogram) = N` still holds for every
supported variant, and for `N = 0` every bin of every variant's histogram
is zero, so its sum over the `bins = max - min + 1` cells is zero. -/
theorem c8_degenerate_partition (gen : Nat → Nat → Int) (seed r : Nat)
    {minv maxv : Int} {N T : Nat} (hr : GenInRange gen minv maxv)
    (hT : 1 ≤ T) (hTN : N < T) (hNT : N + T ≤ U64) :
    (N = 0 → chunk N T = 0) ∧
    (1 ≤ N → chunk N T = 1) ∧
    (∀ t, t < T → N ≤ t → tLen N T t = 0) ∧
    (∀ t h, t < T → N ≤ t →
      countRange (threadsGen gen seed r N T) minv h (tStart N T t) (tLen N T t) = h) ∧
    (∀ v, variantOk v = true →
      histSum (variantHist v (threadsGen gen seed r N T) minv N T)
        ((maxv - minv + 1).toNat) = N) ∧
    (N = 0 → ∀ v b, variantHist v (threadsGen gen seed r N T) minv N T b = 0) := by
  have hc0 : N = 0 → chunk N T = 0 := by
    intro h
    subst h
    rw [chunk_eq hT hNT]
    exact Nat.div_eq_of_lt (by omega)
  have hc1 : 1 ≤ N → chunk N T = 1 := by
    intro h
    rw [chunk_eq hT hNT]
    exact Nat.div_eq_of_lt_le (by omega) (by omega)
  have hlen0 : ∀ t, t < T → N ≤ t → tLen N T t = 0 := by
    intro t ht hNt
    rw [tLen_eq hT hNT ht]
    rcases Nat.eq_zero_or_pos N with h | h
    · rw [hc0 h, Nat.mul_zero, Nat.mul_zero]
      omega
    · rw [hc1 h, Nat.mul_one, Nat.mul_one]
      omega
  refine ⟨hc0, hc1, hlen0, ?_, ?_, ?_⟩
  · intro t h ht hNt
    rw [hlen0 t ht hNt]
    exact countRange_zero _ _ _ _
  · intro v hv
    exact histSum_threads_variant gen seed r hv hr hT hNT
  · intro hN0 v b
    subst hN0
    have hz : ∀ t, t < T → tLen 0 T t = 0 := fun t ht => hlen0 t ht (Nat.zero_le t)
    simp only [variantHist]
    split_ifs
    · show mergeCount _ _ _ _ _ b = 0
      rw [← foldCount_eq_mergeCount, foldCount_zero_lens _ _ _ _ hz]
      rfl
    · show foldCount _ _ _ _ _ b = 0
      rw [foldCount_zero_lens _ _ _ _ hz]
      rfl
    · show foldCount _ _ _ _ _ b = 0
      rw [foldCount_zero_lens _ _ _ _ hz]
      rfl

/-- Witness for C8 at `N = 3, T = 8` (the spec's own degenerate scenario)
and at the `N = 0` case via the same concrete instantiation. -/
theorem c8_degenerate_partition_witness :
    ((3 : Nat) = 0 → chunk 3 8 = 0) ∧
    (1 ≤ (3 : Nat) → chunk 3 8 = 1) ∧
    (∀ t, t < 8 → 3 ≤ t → tLen 3 8 t = 0) ∧
    (∀ t h, t < 8 → 3 ≤ t →
      countRange (threadsGen gen0 0 0 3 8) 0 h (tStart 3 8 t) (tLen 3 8 t) = h) ∧
    (∀ v, variantOk v = true →
      histSum (variantHist v (threadsGen gen0 0 0 3 8) 0 3 8)
        (((9 : Int) - 0 + 1).toNat) = 3) ∧
    ((3 : Nat) = 0 → ∀ v b, variantHist v (threadsGen gen0 0 0 3 8) 0 3 8 b = 0) :=
  c8_degenerate_partition gen0 0 0 (gen0_inRange (by decide) (by decide))
    (by decide) (by decide) (by decide)

theorem tEnd_le (N T t : Nat) : tEnd N T t ≤ N := Nat.min_le_left _ _

/-- Claim C7, amended: worker `t` receives the half-open range
`[t*chunk, min(N,(t+1)*chunk))` with `chunk = ceil(N/T)`; the ranges are
contiguous, pairwise non-overlapping (ordered), and cover `[0,N)` exactly
(their sizes sum to `N`); range sizes are non-increasing in the worker
index: an initial segment of workers receives full `chunk`-sized ranges,
at most one worker receives a shorter non-empty range, and *every* worker
after a short one — not only the last worker — receives an empty range. -/
theorem c7_partitioner (N T : Nat) (hT : 1 ≤ T) (hNT : N + T ≤ U64) :
    (∀ i, i < N ↔ ∃ t, t < T ∧ tStart N T t ≤ i ∧ i < tEnd N T t) ∧
    (∀ t1 t2, t1 < t2 → t2 < T → tEnd N T t1 ≤ tStart N T t2) ∧
    (∀ t, t + 1 < T → tEnd N T t = min N (tStart N T (t + 1))) ∧
    (∀ t1 t2, t1 ≤ t2 → t2 < T → tLen N T t2 ≤ tLen N T t1) ∧
    (∀ t1 t2, t1 < t2 → t2 < T → tLen N T t1 < chunk N T → tLen N T t2 = 0) ∧
    sumLens (tLen N T) T = N := by
  have hmul := le_mul_chunk hT hNT
  refine ⟨?_, ?_, ?_, ?_, ?_, sumLens_tLen_all hT hNT⟩
  · intro i
    constructor
    · intro hi
      have hc : 0 < chunk N T := by
        rcases Nat.eq_zero_or_pos (chunk N T) with h | h
        · rw [h, Nat.mul_zero] at hmul
          omega
        · exact h
      refine ⟨i / chunk N T, ?_, ?_, ?_⟩
      · exact (Nat.div_lt_iff_lt_mul hc).mpr (lt_of_lt_of_le hi hmul)
      · rw [tStart_eq hT hNT
          (le_of_lt ((Nat.div_lt_iff_lt_mul hc).mpr (lt_of_lt_of_le hi hmul)))]
        exact Nat.div_mul_le_self i (chunk N T)
      · rw [tEnd_eq hT hNT ((Nat.div_lt_iff_lt_mul hc).mpr (lt_of_lt_of_le hi hmul))]
        have h1 : chunk N T * (i / chunk N T) + i % chunk N T = i :=
          Nat.div_add_mod i (chunk N T)
        have h2 : i % chunk N T < chunk N T := Nat.mod_lt i hc
        have h3 : (i / chunk N T + 1) * chunk N T =
            i / chunk N T * chunk N T + chunk N T := Nat.succ_mul _ _
        have h4 : chunk N T * (i / chunk N T) = i / chunk N T * chunk N T :=
          Nat.mul_comm _ _
        omega
    · rintro ⟨t, _, _, hi⟩
      exact lt_of_lt_of_le hi (tEnd_le N T t)
  · intro t1 t2 h12 h2
    rw [tEnd_eq hT hNT (lt_trans h12 h2), tStart_eq hT hNT (le_of_lt h2)]
    exact le_trans (Nat.min_le_right _ _) (Nat.mul_le_mul_right _ h12)
  · intro t ht
    rw [tEnd_eq hT hNT (by omega), tStart_eq hT hNT (by omega)]
  · intro t1 t2 h12 h2
    rw [tLen_eq hT hNT (lt_of_le_of_lt h12 h2), tLen_eq hT hNT h2]
    have h3 : t1 * chunk N T ≤ t2 * chunk N T := Nat.mul_le_mul_right _ h12
    have h4 : (t1 + 1) * chunk N T = t1 * chunk N T + chunk N T := Nat.succ_mul _ _
    have h5 : (t2 + 1) * chunk N T = t2 * chunk N T + chunk N T := Nat.succ_mul _ _
    omega
  · intro t1 t2 h12 h2 hshort
    rw [tLen_eq hT hNT (lt_trans h12 h2)] at hshort
    rw [tLen_eq hT hNT h2]
    have h3 : (t1 + 1) * chunk N T ≤ t2 * chunk N T := Nat.mul_le_mul_right _ h12
    have h4 : (t1 + 1) * chunk N T = t1 * chunk N T + chunk N T := Nat.succ_mul _ _
    have h5 : (t2 + 1) * chunk N T = t2 * chunk N T + chunk N T := Nat.succ_mul _ _
    omega

/-- Witness for C7 at `N = 5, T = 4`. -/
theorem c7_partitioner_witness :
    (∀ i, i < 5 ↔ ∃ t, t < 4 ∧ tStart 5 4 t ≤ i ∧ i < tEnd 5 4 t) ∧
    (∀ t1 t2, t1 < t2 → t2 < 4 → tEnd 5 4 t1 ≤ tStart 5 4 t2) ∧
    (∀ t, t + 1 < 4 → tEnd 5 4 t = min 5 (tStart 5 4 (t + 1))) ∧
    (∀ t1 t2, t1 ≤ t2 → t2 < 4 → tLen 5 4 t2 ≤ tLen 5 4 t1) ∧
    (∀ t1 t2, t1 < t2 → t2 < 4 → tLen 5 4 t1 < chunk 5 4 → tLen 5 4 t2 = 0) ∧
    sumLens (tLen 5 4) 4 = 5 :=
  c7_partitioner 5 4 (by decide) (by decide)

/-- Counterexample to claim C7 as stated ("only the last worker may receive
a shorter (possibly empty) range when `N` is not divisible by `chunk`"):
for `N = 5, T = 4` we get `chunk = 2`, which does not divide 5, and worker
2 — which is not the last worker, 3 — receives the shorter range `[4,5)`
of size `1 < chunk`. -/
theorem c7_counterexample :
    (chunk 5 4 == 2) = true ∧
    (5 % chunk 5 4 == 0) = false ∧
    ((2 : Nat) == 4 - 1) = false ∧
    (tLen 5 4 2 == chunk 5 4) = false ∧
    (tLen 5 4 2 == 1) = true := by
  decide

/-! ## Single-worker runs versus the sequential baseline -/

theorem range_one_eq : List.range 1 = [0] := rfl

theorem blocks_one (lens : Nat → Nat) (vals : Nat → Nat → Int) :
    blocks lens vals 1 = (List.range (lens 0)).map (vals 0) := by
  simp [blocks, range_one_eq]

theorem chunk_one {N : Nat} (hN : N < U64) : chunk N 1 = N := by
  unfold chunk
  rw [Nat.add_sub_cancel, Nat.div_one, Nat.mod_eq_of_lt hN]

theorem tStart_one (N : Nat) : tStart N 1 0 = 0 := by
  simp [tStart]

theorem tLen_one {N : Nat} (hN : N < U64) : tLen N 1 0 = N := by
  unfold tLen tEnd tStart
  rw [chunk_one hN]
  simp [Nat.mod_eq_of_lt hN]

theorem foldCount_one (data : List Int) (minv : Int) (starts lens : Nat → Nat) :
    foldCount data minv starts lens 1 =
      countRange data minv zeroHist (starts 0) (lens 0) := by
  simp [foldCount, range_one_eq]

/-- Claim C10: with `thread_count = 1` the explicit thread-pool backend
generates exactly the same dataset as the sequential baseline program for
the same seed, `N`, range and repetition index `r` — worker 0's generator
seed `seed + 0*1337 + r*17` equals the baseline's seed `seed + r*17`
(in `unsigned` arithmetic), both fill indices `0..N-1` in order with the
same generator call sequence — and every counting variant then produces
exactly the baseline's histogram. -/
theorem c10_pool_baseline_equivalence (gen : Nat → Nat → Int)
    (seed r N : Nat) (minv : Int) (hN : N < U64) :
    tseed seed 0 r = (seed + r * 17) % U32 ∧
    threadsGen gen seed r N 1 = seqGen gen seed r N ∧
    (∀ v, variantOk v = true →
      variantHist v (threadsGen gen seed r N 1) minv N 1 =
        seqHist (seqGen gen seed r N) minv N) := by
  have hseed : tseed seed 0 r = (seed + r * 17) % U32 := by
    simp [tseed]
  have hdata : threadsGen gen seed r N 1 = seqGen gen seed r N := by
    unfold threadsGen seqGen
    rw [blocks_one, tLen_one hN, hseed]
  refine ⟨hseed, hdata, ?_⟩
  have hfold : foldCount (threadsGen gen seed r N 1) minv (tStart N 1) (tLen N 1) 1 =
      seqHist (seqGen gen seed r N) minv N := by
    rw [foldCount_one, tStart_one, tLen_one hN, hdata]
    rfl
  intro v hv
  rcases variantOk_cases hv with h | h | h <;> subst h
  · rw [variantHist_private]
    show mergeCount _ _ _ _ _ = _
    rw [← foldCount_eq_mergeCount]
    exact hfold
  · rw [variantHist_atomic]
    exact hfold
  · rw [variantHist_mutex]
    exact hfold

/-- Witness for C10 at a concrete single-thread configuration. -/
theorem c10_pool_baseline_equivalence_witness :
    tseed 3 0 1 = (3 + 1 * 17) % U32 ∧
    threadsGen gen0 3 1 4 1 = seqGen gen0 3 1 4 ∧
    (∀ v, variantOk v = true →
      variantHist v (threadsGen gen0 3 1 4 1) 0 4 1 =
        seqHist (seqGen gen0 3 1 4) 0 4) :=
  c10_pool_baseline_equivalence gen0 3 1 4 0 (by decide)

/-! ## Backend comparison -/

theorem chunk_dvd {N T : Nat} (hT : 1 ≤ T) (hNT : N + T ≤ U64)
    (hd : T ∣ N) : chunk N T = N / T := by
  obtain ⟨q, hq⟩ := hd
  subst hq
  rw [chunk_eq hT hNT, Nat.mul_div_cancel_left q (by omega : 0 < T)]
  have h1 : T * q = q * T := Nat.mul_comm _ _
  have h2 : (q + 1) * T = q * T + T := Nat.succ_mul _ _
  exact Nat.div_eq_of_lt_le (by omega) (by omega)

theorem tLen_dvd {N T t : Nat} (hT : 1 ≤ T) (hNT : N + T ≤ U64)
    (hd : T ∣ N) (ht : t < T) : tLen N T t = oLen N T t := by
  obtain ⟨q, hq⟩ := hd
  have hq' : N / T = q := by
    rw [hq, Nat.mul_div_cancel_left q (by omega : 0 < T)]
  have hmod : N % T = 0 := by
    rw [hq]
    exact Nat.mul_mod_right T q
  rw [tLen_eq hT hNT ht, chunk_dvd hT hNT ⟨q, hq⟩]
  unfold oLen
  rw [hq', hmod, if_neg (by omega)]
  have h1 : (t + 1) * q ≤ T * q := Nat.mul_le_mul_right _ ht
  have h2 : (t + 1) * q = t * q + q := Nat.succ_mul _ _
  have h3 : T * q = N := hq.symm
  omega

theorem tStart_dvd {N T t : Nat} (hT : 1 ≤ T) (hNT : N + T ≤ U64)
    (hd : T ∣ N) (ht : t < T) : tStart N T t = oStart N T t := by
  obtain ⟨q, hq⟩ := hd
  have hq' : N / T = q := by
    rw [hq, Nat.mul_div_cancel_left q (by omega : 0 < T)]
  have hmod : N % T = 0 := by
    rw [hq]
    exact Nat.mul_mod_right T q
  rw [tStart_eq hT hNT (le_of_lt ht), chunk_dvd hT hNT ⟨q, hq⟩]
  unfold oStart
  rw [hq', hmod]
  omega

/-- Claim C2, amended: for fixed
`(seed, N, min, max, thread_count, repetition_index, variant)` the two
backends always produce histograms with equal *sums* (both equal to `N`),
but not bit-identical *contents* in general, because they partition the
generation differently (ceil-chunks of `(N+T-1)/T` versus libgomp's
balanced split `N/T` plus one extra for the first `N mod T` threads); the
contents coincide whenever the two partitionings coincide, in particular
whenever `T` divides `N`, where the backend choice is a pure performance
axis. -/
theorem c2_backend_equivalence (gen : Nat → Nat → Int) (seed r : Nat)
    {v : String} {minv maxv : Int} {N T : Nat}
    (hv : variantOk v = true) (hr : GenInRange gen minv maxv)
    (hT : 1 ≤ T) (hNT : N + T ≤ U64) :
    (histSum (variantHist v (threadsGen gen seed r N T) minv N T)
        ((maxv - minv + 1).toNat) = N ∧
      histSum (ompVariantHist v (ompGen gen seed r N T) minv N T)
        ((maxv - minv + 1).toNat) = N) ∧
    (T ∣ N →
      threadsGen gen seed r N T = ompGen gen seed r N T ∧
      variantHist v (threadsGen gen seed r N T) minv N T =
        ompVariantHist v (ompGen gen seed r N T) minv N T) := by
  refine ⟨⟨histSum_threads_variant gen seed r hv hr hT hNT,
    histSum_omp_variant gen seed r hv hr hT⟩, ?_⟩
  intro hd
  have hdata : threadsGen gen seed r N T = ompGen gen seed r N T := by
    unfold threadsGen ompGen
    exact blocks_congr T (fun t ht => tLen_dvd hT hNT hd ht)
      (fun t k ht hk => rfl)
  refine ⟨hdata, ?_⟩
  have hfold : foldCount (threadsGen gen seed r N T) minv (tStart N T) (tLen N T) T =
      foldCount (ompGen gen seed r N T) minv (oStart N T) (oLen N T) T := by
    rw [hdata]
    exact foldCount_congr _ _ T (fun t ht => tStart_dvd hT hNT hd ht)
      (fun t ht => tLen_dvd hT hNT hd ht)
  rcases variantOk_cases hv with h | h | h <;> subst h
  · rw [variantHist_private, ompVariantHist_private]
    show mergeCount _ _ _ _ _ = mergeCount _ _ _ _ _
    rw [← foldCount_eq_mergeCount, ← foldCount_eq_mergeCount]
    exact hfold
  · rw [variantHist_atomic, ompVariantHist_atomic]
    exact hfold
  · rw [variantHist_mutex, ompVariantHist_mutex]
    exact hfold

/-- Witness for C2 at a concrete configuration with `T ∣ N`
(`N = 6, T = 2`). -/
theorem c2_backend_equivalence_witness :
    (histSum (variantHist "atomic" (threadsGen gen0 0 0 6 2) 0 6 2)
        (((3 : Int) - 0 + 1).toNat) = 6 ∧
      histSum (ompVariantHist "atomic" (ompGen gen0 0 0 6 2) 0 6 2)
        (((3 : Int) - 0 + 1).toNat) = 6) ∧
    ((2 : Nat) ∣ 6 →
      threadsGen gen0 0 0 6 2 = ompGen gen0 0 0 6 2 ∧
      variantHist "atomic" (threadsGen gen0 0 0 6 2) 0 6 2 =
        ompVariantHist "atomic" (ompGen gen0 0 0 6 2) 0 6 2) :=
  c2_backend_equivalence gen0 0 0 (by decide)
    (gen0_inRange (by decide) (by decide)) (by decide) (by decide)

set_option maxRecDepth 4000000 in
/-- Counterexample to claim C2 as stated: with the concrete `mt19937_64`
generator and libstdc++ distribution, `seed = 42`, `N = 4`, range `[0, 9]`,
`T = 3`, repetition 0, the `std::thread` backend generates `[7, 6, 5, 1]`
(ceil-chunk partition of sizes 2, 2, 0) while the OpenMP backend generates
`[7, 6, 5, 7]` (balanced partition of sizes 2, 1, 1), and the two
`private`-variant histograms differ at bin 1 (count 1 versus 0) — the
backends do not produce bit-identical histogram contents. -/
theorem c2_counterexample :
    threadsGen (mtStream 0 9) 42 0 4 3 = [7, 6, 5, 1] ∧
    ompGen (mtStream 0 9) 42 0 4 3 = [7, 6, 5, 7] ∧
    (variantHist "private" (threadsGen (mtStream 0 9) 42 0 4 3) 0 4 3 1 ==
      ompVariantHist "private" (ompGen (mtStream 0 9) 42 0 4 3) 0 4 3 1) = false ∧
    (variantHist "private" (threadsGen (mtStream 0 9) 42 0 4 3) 0 4 3 1 == 1) = true ∧
    (ompVariantHist "private" (ompGen (mtStream 0 9) 42 0 4 3) 0 4 3 1 == 0) = true := by
  decide

end HistBench
